import Mathlib

/-!
Verification of the receipt-processor pipeline (src/receipt_processor/main.py).

The development shallowly embeds the Python code:
* Python strings are `List Char`; the ASCII whitespace set stripped by
  `str.strip()` and by `float()` is modelled by `isPySpace`.
* Python floats are modelled exactly by `PyFloat`: a rational number for
  finite values (binary rounding of IEEE doubles is not modelled; every
  decimal literal denotes its exact rational value) plus `inf`, `ninf`
  and `nan` constructors.
* Dynamically typed record fields are `PyVal` (`None`, `str`, `int`,
  `float`); a Python dict field that may be absent is `Option PyVal`,
  with `none` meaning the key is absent and `some v` meaning the key is
  present with value `v` (possibly `PyVal.vNone`).
* `float(s)` string conversion is modelled by `pyFloatParse`, following
  CPython's grammar: optional surrounding whitespace, optional sign,
  either a case-insensitive `inf`/`infinity`/`nan` or a decimal mantissa
  with optional fraction and exponent.  CPython extensions that no
  verified property depends on (underscore digit separators, non-ASCII
  digits and whitespace) are outside the modelled grammar.
-/

/-- Equality of rationals decided on the numerator and denominator of the
normal form; unlike the derived instance this reduces well inside `decide`. -/
def ratDecEq (a b : ℚ) : Decidable (a = b) :=
  decidable_of_iff (a.num = b.num ∧ a.den = b.den)
    (Iff.intro (fun h => Rat.ext h.1 h.2) (fun h => by rw [h]; exact ⟨rfl, rfl⟩))

instance (priority := 10000) : DecidableEq ℚ := ratDecEq

/-- Python float values: finite values are exact rationals; the special
values `inf`, `-inf` and `nan` are explicit constructors. -/
inductive PyFloat where
  | finite (q : ℚ)
  | inf
  | ninf
  | nan

/-- Boolean equality on `PyFloat` (kernel-reduction friendly). -/
def pyFloatBeq : PyFloat → PyFloat → Bool
  | PyFloat.finite x, PyFloat.finite y => decide (x = y)
  | PyFloat.inf, PyFloat.inf => true
  | PyFloat.ninf, PyFloat.ninf => true
  | PyFloat.nan, PyFloat.nan => true
  | _, _ => false

theorem pyFloatBeq_iff (a b : PyFloat) : pyFloatBeq a b = true ↔ a = b := by
  cases a <;> cases b <;> simp [pyFloatBeq]

instance : DecidableEq PyFloat := fun a b => decidable_of_iff _ (pyFloatBeq_iff a b)

/-- Dynamically typed Python values that can appear in a receipt record
field: `None`, a string, an integer, or a float. -/
inductive PyVal where
  | vNone
  | vStr (s : List Char)
  | vInt (n : ℤ)
  | vFloat (f : PyFloat)

/-- Boolean equality on `PyVal` (kernel-reduction friendly). -/
def pyValBeq : PyVal → PyVal → Bool
  | PyVal.vNone, PyVal.vNone => true
  | PyVal.vStr s, PyVal.vStr t => decide (s = t)
  | PyVal.vInt m, PyVal.vInt n => decide (m = n)
  | PyVal.vFloat f, PyVal.vFloat g => decide (f = g)
  | _, _ => false

theorem pyValBeq_iff (a b : PyVal) : pyValBeq a b = true ↔ a = b := by
  cases a <;> cases b <;> simp [pyValBeq]

instance : DecidableEq PyVal := fun a b => decidable_of_iff _ (pyValBeq_iff a b)

/-- ASCII whitespace stripped by Python `str.strip()` and by `float()`. -/
def isPySpace (c : Char) : Bool :=
  c = ' ' || c = '\t' || c = '\n' || c = '\r' || c = '\x0b' || c = '\x0c'

/-- ASCII decimal digit test (codes 48-57). -/
def isDigitC (c : Char) : Bool :=
  48 ≤ c.toNat && c.toNat ≤ 57

/-- ASCII lower-casing, used for the case-insensitive `inf`/`nan` match
inside `float()`. -/
def asciiLower (c : Char) : Char :=
  if 65 ≤ c.toNat ∧ c.toNat ≤ 90 then Char.ofNat (c.toNat + 32) else c

/-- Left whitespace strip (`str.lstrip()`). -/
def lstrip (l : List Char) : List Char := l.dropWhile isPySpace

/-- Right whitespace strip (`str.rstrip()`), written structurally. -/
def rstrip : List Char → List Char
  | [] => []
  | c :: cs =>
    match rstrip cs with
    | [] => if isPySpace c then [] else [c]
    | r => c :: r

/-- Surrounding whitespace strip (`str.strip()`). -/
def strip (l : List Char) : List Char := rstrip (lstrip l)

/-- Removal of every `"$"` character: `str.replace("$", "")`. -/
def removeDollars (l : List Char) : List Char :=
  l.filter (fun c => decide (c ≠ '$'))

/-- Numeric value of a big-endian list of ASCII digit characters. -/
def natOfDigits (ds : List Char) : ℕ :=
  ds.foldl (fun a c => 10 * a + (c.toNat - 48)) 0

/-- Optional sign at the front of a numeric string; returns the sign
(`1` or `-1`) and the rest of the string. -/
def splitSign (l : List Char) : ℤ × List Char :=
  match l with
  | [] => (1, [])
  | c :: r => if c = '+' then (1, r) else if c = '-' then ((-1 : ℤ), r) else (1, c :: r)

/-- Powers of ten in `ℚ`, written structurally so that concrete parses
evaluate by kernel reduction (`Monoid.npow` does not). -/
def qpow10 : ℕ → ℚ
  | 0 => 1
  | n + 1 => 10 * qpow10 n

/-- Integer powers of ten in `ℚ` (for the exponent part of a float
literal). -/
def qpow10z (e : ℤ) : ℚ :=
  if 0 ≤ e then qpow10 e.toNat else 1 / qpow10 (-e).toNat

/-- Value of a parsed mantissa: sign, integer digits, fraction digits. -/
def mantissaVal (sg : ℤ) (ip fp : List Char) : ℚ :=
  (sg : ℚ) * ((natOfDigits ip : ℚ) + (natOfDigits fp : ℚ) / qpow10 fp.length)

/-- The optional fraction part after the integer digits: a `.` followed by
digits (possibly none); anything else contributes no fraction digits. -/
def fracSplit (r1 : List Char) : List Char × List Char :=
  match r1 with
  | '.' :: u => (u.takeWhile isDigitC, u.dropWhile isDigitC)
  | _ => ([], r1)

/-- The optional exponent: nothing (exponent `0`), or `e`/`E`, optional
sign, and at least one digit consuming the rest of the input; `none`
models a parse failure. -/
def expParse (l : List Char) : Option ℤ :=
  match l with
  | [] => some 0
  | c :: u =>
    if c = 'e' ∨ c = 'E' then
      let ev := splitSign u
      let ed := ev.2.takeWhile isDigitC
      let v2 := ev.2.dropWhile isDigitC
      if ed = [] ∨ v2 ≠ [] then none
      else some (ev.1 * (natOfDigits ed : ℤ))
    else none

/-- Mantissa-with-exponent stage of `float(s)`: integer digits, optional
fraction, optional exponent, with at least one mantissa digit and the
whole input consumed. -/
def pyFloatMant (sg : ℤ) (r : List Char) : Option PyFloat :=
  let ip := r.takeWhile isDigitC
  let fr := fracSplit (r.dropWhile isDigitC)
  if ip = [] ∧ fr.1 = [] then none
  else
    match expParse fr.2 with
    | none => none
    | some e => some (PyFloat.finite (mantissaVal sg ip fr.1 * qpow10z e))

/-- Core of `float(s)` after whitespace stripping: optional sign, then a
case-insensitive `inf`/`infinity`/`nan`, or a decimal mantissa with
optional fraction and exponent.  The whole input must be consumed. -/
def pyFloatNum (t : List Char) : Option PyFloat :=
  let sr := splitSign t
  let low := sr.2.map asciiLower
  if low = "inf".toList ∨ low = "infinity".toList then
    some (if sr.1 = 1 then PyFloat.inf else PyFloat.ninf)
  else if low = "nan".toList then
    some PyFloat.nan
  else pyFloatMant sr.1 sr.2

/-- Python `float(s)` on a string: strip surrounding whitespace, then
parse the numeric core; `none` models the `ValueError` raised on
malformed input. -/
def pyFloatParse (s : List Char) : Option PyFloat :=
  pyFloatNum (strip s)

/-- The ASCII character of a decimal digit value. -/
def digitChar : ℕ → Char
  | 0 => '0'
  | 1 => '1'
  | 2 => '2'
  | 3 => '3'
  | 4 => '4'
  | 5 => '5'
  | 6 => '6'
  | 7 => '7'
  | 8 => '8'
  | _ => '9'

/-- Little-endian decimal digit characters, with explicit fuel so that the
recursion is structural (the fuel is an upper bound on the digit count;
`revDigits` always supplies enough). -/
def revDigitsAux : ℕ → ℕ → List Char
  | _, 0 => []
  | n, fuel + 1 => if n = 0 then [] else digitChar (n % 10) :: revDigitsAux (n / 10) fuel

/-- Little-endian decimal digit characters of `n` (empty for `0`). -/
def revDigits (n : ℕ) : List Char := revDigitsAux n n

/-- Big-endian decimal digit characters of `n` (`"0"` for `0`). -/
def natToDigits (n : ℕ) : List Char :=
  if n = 0 then ['0'] else (revDigits n).reverse

/-- Python `str(i)` on an integer. -/
def intRepr (n : ℤ) : List Char :=
  if n < 0 then '-' :: natToDigits n.natAbs else natToDigits n.natAbs

/-- Python `str(x)` / `repr(x)` on a float.  In this exact-rational model
the representation of a finite value is its exact decimal expansion
(CPython prints the shortest decimal that round-trips to the same IEEE
double; in both cases `float(str(x))` recovers `x` exactly, which is the
property the code under verification relies on).  A rational whose
reduced denominator is not a divisor of a power of ten has no decimal
expansion and never arises as a Python float; for totality it is
rendered as `num/den`, which `float()` rejects. -/
def floatRepr : PyFloat → List Char
  | PyFloat.inf => "inf".toList
  | PyFloat.ninf => "-inf".toList
  | PyFloat.nan => "nan".toList
  | PyFloat.finite q =>
    let sg := if q < 0 then ['-'] else []
    let a := if q < 0 then -q else q
    let k := a.den
    let scaled := a * qpow10 k
    if scaled.den = 1 then
      let m := scaled.num.toNat
      let ip := m / 10 ^ k
      let fp := m % 10 ^ k
      let fds := natToDigits fp
      let pad := List.replicate (k - fds.length) '0' ++ fds
      let t := (pad.reverse.dropWhile (fun c => decide (c = '0'))).reverse
      sg ++ natToDigits ip ++ '.' :: (if t = [] then ['0'] else t)
    else
      sg ++ natToDigits a.num.toNat ++ '/' :: natToDigits a.den

/-- Python `str(x)` on a record field value. -/
def pyStr : PyVal → List Char
  | PyVal.vNone => "None".toList
  | PyVal.vStr s => s
  | PyVal.vInt n => intRepr n
  | PyVal.vFloat f => floatRepr f

/-- The Normalizer (`sanitize_amount` in main.py): `None` maps to `None`;
otherwise the value is converted to text, every `"$"` is removed
(`str.replace("$", "")`), surrounding whitespace is stripped, and the
result is parsed with `float()`; a parse failure yields `None`. -/
def sanitize_amount (amount : PyVal) : PyVal :=
  if amount = PyVal.vNone then PyVal.vNone
  else
    match pyFloatParse (strip (removeDollars (pyStr amount))) with
    | some f => PyVal.vFloat f
    | none => PyVal.vNone

/-- Calendar date produced by `datetime.strptime(s, "%Y-%m-%d")`;
comparison of `datetime` objects is lexicographic on (year, month, day). -/
structure Date where
  year : ℕ
  month : ℕ
  day : ℕ
deriving DecidableEq

/-- Gregorian leap-year rule used by `datetime` for validating Feb 29. -/
def isLeapYear (y : ℕ) : Bool :=
  y % 4 = 0 && (y % 100 ≠ 0 || y % 400 = 0)

/-- Number of days in a month, as validated by the `datetime` constructor. -/
def daysInMonth (y m : ℕ) : ℕ :=
  if m = 2 then (if isLeapYear y then 29 else 28)
  else if m = 4 ∨ m = 6 ∨ m = 9 ∨ m = 11 then 30
  else 31

/-- Value of an ASCII digit character. -/
def digitVal (c : Char) : ℕ := c.toNat - 48

/-- One-or-two digit month/day field of CPython `_strptime`: `%m` matches
the regex `1[0-2]|0[1-9]|[1-9]` and `%d` matches
`3[01]|[12]\d|0[1-9]|[1-9]`; both are exactly the two-digit strings whose
value lies in `1..hi` tried first, then a single nonzero digit.  (If a
two-digit match succeeds here but the caller then fails, the regex
alternative of a one-digit match cannot rescue the parse: the following
character would be the second digit, where the caller's pattern requires
a `"-"` or the end of the string, so committing to the greedy match is
faithful.) -/
def parseMD (l : List Char) (hi : ℕ) : Option (ℕ × List Char) :=
  match l with
  | a :: b :: rest =>
    if isDigitC a ∧ isDigitC b ∧ 1 ≤ digitVal a * 10 + digitVal b
        ∧ digitVal a * 10 + digitVal b ≤ hi then
      some (digitVal a * 10 + digitVal b, rest)
    else if isDigitC a ∧ 1 ≤ digitVal a ∧ digitVal a ≤ 9 then
      some (digitVal a, b :: rest)
    else none
  | [a] =>
    if isDigitC a ∧ 1 ≤ digitVal a ∧ digitVal a ≤ 9 then some (digitVal a, []) else none
  | [] => none

/-- The model of `datetime.strptime(s, "%Y-%m-%d")`: exactly four digits
for `%Y`, a literal `-`, one or two digits for `%m` (value 1..12), a
literal `-`, one or two digits for `%d` (value 1..31), end of string;
then the `datetime` constructor validates `1 <= year <= 9999` (four
digits bound it above) and the day against the month length.  `none`
models the `ValueError` raised on any failure. -/
def strptimeYMD (l : List Char) : Option Date :=
  match l with
  | y1 :: y2 :: y3 :: y4 :: '-' :: rest =>
    if isDigitC y1 ∧ isDigitC y2 ∧ isDigitC y3 ∧ isDigitC y4 then
      let y := ((digitVal y1 * 10 + digitVal y2) * 10 + digitVal y3) * 10 + digitVal y4
      match parseMD rest 12 with
      | some (m, '-' :: rest2) =>
        match parseMD rest2 31 with
        | some (d, []) =>
          if 1 ≤ y ∧ 1 ≤ d ∧ d ≤ daysInMonth y m then some ⟨y, m, d⟩ else none
        | _ => none
      | _ => none
    else none
  | _ => none

/-- The `parse_date` function of main.py: `datetime.strptime(s, "%Y-%m-%d")`
returning `None` on `ValueError` (malformed string) or `TypeError`
(argument not a string). -/
def parse_date : PyVal → Option Date
  | PyVal.vStr s => strptimeYMD s
  | _ => none

/-- Strict `datetime` comparison, lexicographic on (year, month, day). -/
def dateLt (a b : Date) : Prop :=
  a.year < b.year ∨ (a.year = b.year ∧
    (a.month < b.month ∨ (a.month = b.month ∧ a.day < b.day)))

instance (a b : Date) : Decidable (dateLt a b) := by
  unfold dateLt; infer_instance

/-- Non-strict `datetime` comparison, lexicographic on (year, month, day). -/
def dateLe (a b : Date) : Prop :=
  a.year < b.year ∨ (a.year = b.year ∧
    (a.month < b.month ∨ (a.month = b.month ∧ a.day ≤ b.day)))

instance (a b : Date) : Decidable (dateLe a b) := by
  unfold dateLe; infer_instance

/-- A receipt record: a Python dict with keys `date`, `amount`, `vendor`,
`category` (the four keys the extraction prompt requests).  A field is
`none` when the key is absent and `some v` when present with value `v`;
`dict.get(k)` on an absent key yields Python `None`. -/
structure Record where
  date : Option PyVal
  amount : Option PyVal
  vendor : Option PyVal
  category : Option PyVal

/-- Boolean equality on `Record` (kernel-reduction friendly). -/
def recordBeq (a b : Record) : Bool :=
  decide (a.date = b.date) && decide (a.amount = b.amount)
    && decide (a.vendor = b.vendor) && decide (a.category = b.category)

theorem recordBeq_iff (a b : Record) : recordBeq a b = true ↔ a = b := by
  cases a
  cases b
  simp [recordBeq]
  tauto

instance : DecidableEq Record := fun a b => decidable_of_iff _ (recordBeq_iff a b)

/-- `receipt.get(key)`: the field's value, or Python `None` when the key is
absent. -/
def pyGet (o : Option PyVal) : PyVal := o.getD PyVal.vNone

/-- A processed collection: filename keys mapped to records, in insertion
order (Python dicts preserve it, and `data.values()` iterates in it). -/
abbrev Collection := List (String × Record)

/-- `amount` viewed as a Python number: `some` for `int` and `float`
values (the `isinstance(amount, (int, float))` test of main.py, with the
`int` embedded into the float sum), `none` for `None`, strings and
anything else. -/
def asNum : PyVal → Option PyFloat
  | PyVal.vInt n => some (PyFloat.finite (n : ℚ))
  | PyVal.vFloat f => some f
  | _ => none

/-- Python float addition on the model: `nan` is absorbing, opposite
infinities give `nan`, and finite values add exactly. -/
def pyAdd : PyFloat → PyFloat → PyFloat
  | PyFloat.nan, _ => PyFloat.nan
  | _, PyFloat.nan => PyFloat.nan
  | PyFloat.inf, PyFloat.ninf => PyFloat.nan
  | PyFloat.ninf, PyFloat.inf => PyFloat.nan
  | PyFloat.inf, _ => PyFloat.inf
  | _, PyFloat.inf => PyFloat.inf
  | PyFloat.ninf, _ => PyFloat.ninf
  | _, PyFloat.ninf => PyFloat.ninf
  | PyFloat.finite a, PyFloat.finite b => PyFloat.finite (a + b)

/-- The loop body of `calculate_expenses`: skip a record whose date is
absent, unparseable or outside the inclusive range, or whose amount is
not a number; otherwise add the amount to the running total. -/
def calcStep (start stop : Date) (total : PyFloat) (nr : String × Record) : PyFloat :=
  match parse_date (pyGet nr.2.date) with
  | none => total
  | some d =>
    if dateLt d start ∨ dateLt stop d then total
    else
      match asNum (pyGet nr.2.amount) with
      | none => total
      | some a => pyAdd total a

/-- The `calculate_expenses` function of main.py: parse both bounds (on
failure return `0.0`), then fold over the records in order, skipping
records whose date is absent or unparseable or outside the inclusive
range, and records whose amount is not a number.  (`end` is a Lean
keyword, so the parameter is named `end_date`/`stop` here.) -/
def calculate_expenses (data : Collection) (start_date end_date : PyVal) : PyFloat :=
  match parse_date start_date, parse_date end_date with
  | some start, some stop => data.foldl (calcStep start stop) (PyFloat.finite 0)
  | _, _ => PyFloat.finite 0

/-- Lookup in a Python dict modelled as an association list. -/
def alGet : List (PyVal × PyFloat) → PyVal → Option PyFloat
  | [], _ => none
  | (k, v) :: t, key => if k = key then some v else alGet t key

/-- Assignment in a Python dict modelled as an association list: update in
place when the key is present, append otherwise (insertion order). -/
def alSet : List (PyVal × PyFloat) → PyVal → PyFloat → List (PyVal × PyFloat)
  | [], key, v => [(key, v)]
  | (k, w) :: t, key, v =>
    if k = key then (k, v) :: t else (k, w) :: alSet t key v

/-- The loop body of `aggregate_by_category`: the category key is
`receipt.get("category", "Other")` (the default applies only when the key
is absent), records whose amount is not a number are skipped, and the
amount is added to the category's running total (created at `0.0` on
first use). -/
def aggStep (totals : List (PyVal × PyFloat)) (nr : String × Record) :
    List (PyVal × PyFloat) :=
  let category := nr.2.category.getD (PyVal.vStr "Other".toList)
  match asNum (pyGet nr.2.amount) with
  | none => totals
  | some a =>
    alSet totals category (pyAdd ((alGet totals category).getD (PyFloat.finite 0)) a)

/-- The `aggregate_by_category` function of main.py: a fold of `aggStep`
over the records in insertion order, starting from the empty dict. -/
def aggregate_by_category (data : Collection) : List (PyVal × PyFloat) :=
  data.foldl aggStep []

/-- The record-processing step of `process_directory` in main.py,
parameterized by the file list and the opaque I/O and extraction
collaborators (`io_mod.encode_file`, `gpt.extract_receipt_info`): each
file's extracted record has its `amount` key overwritten with
`sanitize_amount(data.get("amount"))`. -/
def process_directory (files : List (String × String)) (encode : String → String)
    (extract : String → Record) : Collection :=
  files.map (fun nf =>
    (nf.1,
      let data := extract (encode nf.2)
      { data with amount := some (sanitize_amount (pyGet data.amount)) }))

/-! ### Character-level facts -/

theorem digitVal_digitChar {m : ℕ} (h : m ≤ 9) : digitVal (digitChar m) = m := by
  interval_cases m <;> rfl

theorem toNat_digitChar {m : ℕ} (h : m ≤ 9) : (digitChar m).toNat = 48 + m := by
  interval_cases m <;> rfl

theorem isDigitC_digitChar {m : ℕ} (h : m ≤ 9) : isDigitC (digitChar m) = true := by
  interval_cases m <;> rfl

theorem isDigitC_toNat {c : Char} (h : isDigitC c = true) :
    48 ≤ c.toNat ∧ c.toNat ≤ 57 := by
  simpa [isDigitC] using h

theorem space_toNat_le {c : Char} (h : isPySpace c = true) : c.toNat ≤ 32 := by
  simp only [isPySpace, Bool.or_eq_true, decide_eq_true_eq] at h
  rcases h with ((((h | h) | h) | h) | h) | h <;> subst h <;> decide

theorem not_space_of_digit {c : Char} (h : isDigitC c = true) : isPySpace c = false := by
  rcases isDigitC_toNat h with ⟨h1, h2⟩
  cases hs : isPySpace c
  · rfl
  · exact absurd (space_toNat_le hs) (by omega)

theorem ne_of_digit_toNat {c d : Char} (h : isDigitC c = true)
    (hd : d.toNat < 48 ∨ 57 < d.toNat) : c ≠ d := by
  rcases isDigitC_toNat h with ⟨h1, h2⟩
  intro he
  subst he
  omega

theorem asciiLower_digit {c : Char} (h : isDigitC c = true) : asciiLower c = c := by
  rcases isDigitC_toNat h with ⟨h1, h2⟩
  unfold asciiLower
  rw [if_neg]
  omega

/-! ### Whitespace stripping -/

theorem lstrip_space_append {w y : List Char} (h : ∀ c ∈ w, isPySpace c = true) :
    lstrip (w ++ y) = lstrip y := by
  induction w with
  | nil => rfl
  | cons c t ih =>
    simp only [List.cons_append, lstrip, List.dropWhile_cons,
      h c (List.mem_cons_self c t), if_true]
    exact ih (fun d hd => h d (List.mem_cons_of_mem c hd))

theorem lstrip_space_nil {w : List Char} (h : ∀ c ∈ w, isPySpace c = true) :
    lstrip w = [] := by
  have := lstrip_space_append (y := []) h
  simpa using this

theorem rstrip_space_nil {w : List Char} (h : ∀ c ∈ w, isPySpace c = true) :
    rstrip w = [] := by
  induction w with
  | nil => rfl
  | cons c t ih =>
    simp only [rstrip, ih (fun d hd => h d (List.mem_cons_of_mem c hd)),
      h c (List.mem_cons_self c t), if_true]

theorem rstrip_append_space {w : List Char} (y : List Char)
    (h : ∀ c ∈ w, isPySpace c = true) : rstrip (y ++ w) = rstrip y := by
  induction y with
  | nil => simpa using rstrip_space_nil h
  | cons c t ih =>
    show rstrip (c :: (t ++ w)) = rstrip (c :: t)
    simp only [rstrip, ih]

theorem lstrip_append_cases (x w : List Char) :
    lstrip (x ++ w) = lstrip x ++ w ∨ (lstrip x = [] ∧ lstrip (x ++ w) = lstrip w) := by
  induction x with
  | nil => exact Or.inr ⟨rfl, rfl⟩
  | cons c t ih =>
    cases hc : isPySpace c
    · left
      simp [List.cons_append, lstrip, List.dropWhile_cons, hc]
    · simpa only [List.cons_append, lstrip, List.dropWhile_cons, hc, if_true] using ih

theorem strip_append_space {w : List Char} (x : List Char)
    (h : ∀ c ∈ w, isPySpace c = true) : strip (x ++ w) = strip x := by
  unfold strip
  rcases lstrip_append_cases x w with hc | ⟨h1, h2⟩
  · rw [hc, rstrip_append_space _ h]
  · rw [h1, h2, lstrip_space_nil h]

theorem strip_space_append {w : List Char} (x : List Char)
    (h : ∀ c ∈ w, isPySpace c = true) : strip (w ++ x) = strip x := by
  unfold strip
  rw [lstrip_space_append h]

theorem strip_outer {w1 w2 : List Char} (x : List Char)
    (h1 : ∀ c ∈ w1, isPySpace c = true) (h2 : ∀ c ∈ w2, isPySpace c = true) :
    strip (w1 ++ x ++ w2) = strip x := by
  rw [List.append_assoc, strip_space_append _ h1, strip_append_space _ h2]

theorem lstrip_no_space {l : List Char} (h : ∀ c ∈ l, isPySpace c = false) :
    lstrip l = l := by
  cases l with
  | nil => rfl
  | cons c t =>
    simp [lstrip, List.dropWhile_cons, h c (List.mem_cons_self c t)]

theorem rstrip_no_space {l : List Char} (h : ∀ c ∈ l, isPySpace c = false) :
    rstrip l = l := by
  induction l with
  | nil => rfl
  | cons c t ih =>
    have hc : isPySpace c = false := h c (List.mem_cons_self c t)
    have ht := ih (fun d hd => h d (List.mem_cons_of_mem c hd))
    show (match rstrip t with
      | [] => if isPySpace c then [] else [c]
      | r => c :: r) = c :: t
    rw [ht]
    cases t with
    | nil => simp [hc]
    | cons d u => rfl

theorem strip_no_space {l : List Char} (h : ∀ c ∈ l, isPySpace c = false) :
    strip l = l := by
  unfold strip
  rw [lstrip_no_space h, rstrip_no_space h]

theorem rstrip_cons (c : Char) (t : List Char) :
    rstrip (c :: t) = match rstrip t with
      | [] => if isPySpace c then [] else [c]
      | r => c :: r := rfl

theorem lstrip_idem (l : List Char) : lstrip (lstrip l) = lstrip l := by
  induction l with
  | nil => rfl
  | cons c t ih =>
    cases hc : isPySpace c
    · simp [lstrip, List.dropWhile_cons, hc]
    · simpa [lstrip, List.dropWhile_cons, hc] using ih

theorem rstrip_idem (l : List Char) : rstrip (rstrip l) = rstrip l := by
  induction l with
  | nil => rfl
  | cons c t ih =>
    rw [rstrip_cons]
    cases ht : rstrip t with
    | nil =>
      cases hc : isPySpace c
      · simp [rstrip, hc]
      · simp [rstrip, hc]
    | cons d u =>
      simp only []
      rw [rstrip_cons]
      rw [← ht, ih, ht]

theorem lstrip_rstrip_head {c : Char} (t : List Char) (hc : isPySpace c = false) :
    lstrip (rstrip (c :: t)) = rstrip (c :: t) := by
  rw [rstrip_cons]
  cases ht : rstrip t with
  | nil =>
    simp [hc, lstrip]
  | cons d u =>
    simp only []
    simp [lstrip, List.dropWhile_cons, hc]

theorem lstrip_head_false {l : List Char} {c : Char} {t : List Char}
    (h : lstrip l = c :: t) : isPySpace c = false := by
  induction l with
  | nil => exact absurd h (by simp [lstrip])
  | cons d u ih =>
    cases hd : isPySpace d
    · have : lstrip (d :: u) = d :: u := by
        simp [lstrip, List.dropWhile_cons, hd]
      rw [this] at h
      cases h
      exact hd
    · rw [show lstrip (d :: u) = lstrip u by
        simp [lstrip, List.dropWhile_cons, hd]] at h
      exact ih h

theorem strip_idem (l : List Char) : strip (strip l) = strip l := by
  unfold strip
  cases hl : lstrip l with
  | nil => rfl
  | cons c t =>
    rw [lstrip_rstrip_head t (lstrip_head_false hl), rstrip_idem]

theorem pyFloatParse_strip (s : List Char) : pyFloatParse (strip s) = pyFloatParse s := by
  unfold pyFloatParse
  rw [strip_idem]

/-! ### takeWhile / dropWhile on fully-satisfying and boundary lists -/

theorem twAll {p : Char → Bool} {l : List Char} (h : ∀ c ∈ l, p c = true) :
    l.takeWhile p = l := by
  induction l with
  | nil => rfl
  | cons c t ih =>
    simp only [List.takeWhile_cons, h c (List.mem_cons_self c t), if_true]
    rw [ih (fun d hd => h d (List.mem_cons_of_mem c hd))]

theorem dwAll {p : Char → Bool} {l : List Char} (h : ∀ c ∈ l, p c = true) :
    l.dropWhile p = [] := by
  induction l with
  | nil => rfl
  | cons c t ih =>
    simp only [List.dropWhile_cons, h c (List.mem_cons_self c t), if_true]
    exact ih (fun d hd => h d (List.mem_cons_of_mem c hd))

theorem twBoundary {p : Char → Bool} {A : List Char} {x : Char} (B : List Char)
    (hA : ∀ c ∈ A, p c = true) (hx : p x = false) :
    (A ++ x :: B).takeWhile p = A ∧ (A ++ x :: B).dropWhile p = x :: B := by
  induction A with
  | nil =>
    constructor
    · simp [List.takeWhile_cons, hx]
    · simp [List.dropWhile_cons, hx]
  | cons c t ih =>
    have hc := hA c (List.mem_cons_self c t)
    have ht := ih (fun d hd => hA d (List.mem_cons_of_mem c hd))
    constructor
    · simp only [List.cons_append, List.takeWhile_cons, hc, if_true, ht.1]
    · simp only [List.cons_append, List.dropWhile_cons, hc, if_true, ht.2]

/-! ### Decimal digit strings and their numeric values -/

theorem natOfDigits_foldl (B : List Char) : ∀ init : ℕ,
    B.foldl (fun a c => 10 * a + (c.toNat - 48)) init
      = init * 10 ^ B.length + natOfDigits B := by
  induction B with
  | nil => intro init; simp [natOfDigits]
  | cons c t ih =>
    intro init
    show t.foldl _ (10 * init + (c.toNat - 48)) = _
    rw [ih]
    have hd : natOfDigits (c :: t) = (c.toNat - 48) * 10 ^ t.length + natOfDigits t := by
      show t.foldl _ (10 * 0 + (c.toNat - 48)) = _
      rw [ih]
      norm_num
    rw [hd]
    simp [List.length_cons]
    ring

theorem natOfDigits_append (A B : List Char) :
    natOfDigits (A ++ B) = natOfDigits A * 10 ^ B.length + natOfDigits B := by
  unfold natOfDigits
  rw [List.foldl_append]
  exact natOfDigits_foldl B _

theorem natOfDigits_replicate_zero (j : ℕ) :
    natOfDigits (List.replicate j '0') = 0 := by
  induction j with
  | zero => rfl
  | succ n ih =>
    show natOfDigits ('0' :: List.replicate n '0') = 0
    unfold natOfDigits at ih ⊢
    simp only [List.foldl_cons]
    convert ih using 2

theorem natOfDigits_zeros_front (j : ℕ) (B : List Char) :
    natOfDigits (List.replicate j '0' ++ B) = natOfDigits B := by
  rw [natOfDigits_append, natOfDigits_replicate_zero]
  simp

theorem natOfDigits_zeros_back (A : List Char) (j : ℕ) :
    natOfDigits (A ++ List.replicate j '0') = natOfDigits A * 10 ^ j := by
  rw [natOfDigits_append, natOfDigits_replicate_zero, List.length_replicate]
  simp

/-! ### Digit strings of natural numbers -/

theorem revDigitsAux_spec : ∀ (fuel n : ℕ), n ≤ fuel →
    natOfDigits (revDigitsAux n fuel).reverse = n
      ∧ (∀ c ∈ revDigitsAux n fuel, isDigitC c = true) := by
  intro fuel
  induction fuel with
  | zero =>
    intro n hn
    have : n = 0 := Nat.le_zero.mp hn
    subst this
    exact ⟨rfl, by intro c hc; cases hc⟩
  | succ f ih =>
    intro n hn
    by_cases h0 : n = 0
    · subst h0
      exact ⟨rfl, by intro c hc; simp [revDigitsAux] at hc⟩
    · have hrec : n / 10 ≤ f := by
        have : n / 10 < n := Nat.div_lt_self (Nat.pos_of_ne_zero h0) (by norm_num)
        omega
      obtain ⟨ihv, ihd⟩ := ih (n / 10) hrec
      have hm : n % 10 ≤ 9 := by omega
      have hstep : revDigitsAux n (f + 1)
          = digitChar (n % 10) :: revDigitsAux (n / 10) f := by
        simp [revDigitsAux, h0]
      constructor
      · rw [hstep, List.reverse_cons]
        rw [natOfDigits_append, ihv]
        have : natOfDigits [digitChar (n % 10)] = n % 10 := by
          show 10 * 0 + ((digitChar (n % 10)).toNat - 48) = n % 10
          rw [toNat_digitChar hm]
          omega
        rw [this]
        simp only [List.length_cons, List.length_nil, pow_one, pow_zero]
        omega
      · rw [hstep]
        intro c hc
        rcases List.mem_cons.mp hc with h | h
        · subst h; exact isDigitC_digitChar hm
        · exact ihd c h

theorem natOfDigits_natToDigits (n : ℕ) : natOfDigits (natToDigits n) = n := by
  unfold natToDigits
  by_cases h0 : n = 0
  · subst h0; rfl
  · rw [if_neg h0]
    exact (revDigitsAux_spec n n (le_refl n)).1

theorem natToDigits_digits (n : ℕ) : ∀ c ∈ natToDigits n, isDigitC c = true := by
  unfold natToDigits
  by_cases h0 : n = 0
  · subst h0; intro c hc; simp at hc; subst hc; rfl
  · rw [if_neg h0]
    intro c hc
    exact (revDigitsAux_spec n n (le_refl n)).2 c (List.mem_reverse.mp hc)

theorem natToDigits_ne_nil (n : ℕ) : natToDigits n ≠ [] := by
  unfold natToDigits
  by_cases h0 : n = 0
  · subst h0; simp
  · rw [if_neg h0]
    unfold revDigits
    cases hf : n with
    | zero => exact absurd hf h0
    | succ f =>
      simp [revDigitsAux, h0]

theorem revDigitsAux_length : ∀ (fuel n k : ℕ), n ≤ fuel → n < 10 ^ k →
    (revDigitsAux n fuel).length ≤ k := by
  intro fuel
  induction fuel with
  | zero =>
    intro n k hn _
    have : n = 0 := Nat.le_zero.mp hn
    subst this
    simp [revDigitsAux]
  | succ f ih =>
    intro n k hn hk
    by_cases h0 : n = 0
    · subst h0; simp [revDigitsAux]
    · have hkpos : k ≠ 0 := by
        intro h
        subst h
        simp at hk
        omega
      have hrec : n / 10 ≤ f := by
        have : n / 10 < n := Nat.div_lt_self (Nat.pos_of_ne_zero h0) (by norm_num)
        omega
      have hdiv : n / 10 < 10 ^ (k - 1) := by
        rw [Nat.div_lt_iff_lt_mul (by norm_num)]
        calc n < 10 ^ k := hk
        _ = 10 ^ (k - 1) * 10 := by
          rw [← pow_succ]
          congr 1
          omega
      have := ih (n / 10) (k - 1) hrec hdiv
      simp only [revDigitsAux, h0, if_false, List.length_cons]
      omega

theorem natToDigits_length {n k : ℕ} (hk : 1 ≤ k) (hn : n < 10 ^ k) :
    (natToDigits n).length ≤ k := by
  unfold natToDigits
  by_cases h0 : n = 0
  · subst h0; simpa using hk
  · rw [if_neg h0]
    rw [List.length_reverse]
    exact revDigitsAux_length n n k (le_refl n) hn

/-! ### Powers of ten -/

theorem qpow10_eq (n : ℕ) : qpow10 n = (10 : ℚ) ^ n := by
  induction n with
  | zero => rfl
  | succ m ih =>
    show 10 * qpow10 m = _
    rw [ih, pow_succ]
    ring

theorem qpow10_ne_zero (n : ℕ) : qpow10 n ≠ 0 := by
  rw [qpow10_eq]
  positivity

/-! ### The value of every finite parse is an integer over a power of ten -/

theorem mantissaVal_range (sg : ℤ) (ip fp : List Char) :
    ∃ (M : ℤ) (K : ℕ), mantissaVal sg ip fp = (M : ℚ) / 10 ^ K := by
  refine ⟨sg * ((natOfDigits ip : ℤ) * 10 ^ fp.length + (natOfDigits fp : ℤ)), fp.length, ?_⟩
  unfold mantissaVal
  rw [qpow10_eq]
  have h10 : ((10 : ℚ) ^ fp.length) ≠ 0 := by positivity
  field_simp

theorem mul_qpow10z_range {x : ℚ} (M : ℤ) (K : ℕ) (e : ℤ)
    (h : x = (M : ℚ) / 10 ^ K) :
    ∃ (N : ℤ) (J : ℕ), x * qpow10z e = (N : ℚ) / 10 ^ J := by
  unfold qpow10z
  by_cases he : 0 ≤ e
  · refine ⟨M * 10 ^ e.toNat, K, ?_⟩
    rw [if_pos he, h, qpow10_eq]
    push_cast
    ring
  · refine ⟨M, K + (-e).toNat, ?_⟩
    rw [if_neg he, h, qpow10_eq, pow_add, div_mul_div_comm, mul_one]

theorem pyFloatMant_range {sg : ℤ} {r : List Char} {q : ℚ}
    (h : pyFloatMant sg r = some (PyFloat.finite q)) :
    ∃ (M : ℤ) (K : ℕ), q = (M : ℚ) / 10 ^ K := by
  simp only [pyFloatMant] at h
  split at h
  · cases h
  · rcases he : expParse (fracSplit (r.dropWhile isDigitC)).2 with _ | e
    · rw [he] at h; cases h
    · rw [he] at h
      obtain ⟨M, K, hMK⟩ := mantissaVal_range sg (r.takeWhile isDigitC)
        (fracSplit (r.dropWhile isDigitC)).1
      obtain ⟨N, J, hNJ⟩ := mul_qpow10z_range M K e hMK
      refine ⟨N, J, ?_⟩
      rw [← (PyFloat.finite.inj (Option.some.inj h))]
      exact hNJ

theorem pyFloatNum_finite_range {t : List Char} {q : ℚ}
    (h : pyFloatNum t = some (PyFloat.finite q)) :
    ∃ (M : ℤ) (K : ℕ), q = (M : ℚ) / 10 ^ K := by
  simp only [pyFloatNum] at h
  split at h
  · split at h <;> exact absurd (Option.some.inj h) (by intro hh; cases hh)
  · split at h
    · exact absurd (Option.some.inj h) (by intro hh; cases hh)
    · exact pyFloatMant_range h

theorem den_dvd_of_div_pow {q : ℚ} {M : ℤ} {K : ℕ}
    (h : q = (M : ℚ) / 10 ^ K) : q.den ∣ 10 ^ K := by
  have hd : q = Rat.divInt M ((10 : ℤ) ^ K) := by
    rw [Rat.divInt_eq_div, h]
    push_cast
    ring
  have := Rat.den_dvd M ((10 : ℤ) ^ K)
  rw [← hd] at this
  have h2 : ((10 : ℤ) ^ K) = (((10 ^ K : ℕ) : ℤ)) := by push_cast; ring
  rw [h2] at this
  exact_mod_cast this

theorem dvd_ten_pow_self : ∀ (d : ℕ), (∃ K, d ∣ 10 ^ K) → d ∣ 10 ^ d := by
  intro d
  induction d using Nat.strong_induction_on with
  | _ d ih =>
    intro hKd
    obtain ⟨K, hd⟩ := hKd
    rcases Nat.eq_zero_or_pos d with h0 | hpos
    · subst h0
      have h1 := Nat.eq_zero_of_zero_dvd hd
      have h2 : 0 < 10 ^ K := pow_pos (by norm_num) K
      omega
    rcases eq_or_ne d 1 with h1 | h1
    · subst h1; exact one_dvd _
    have hp : Nat.Prime d.minFac := Nat.minFac_prime h1
    have hpd : d.minFac ∣ d := Nat.minFac_dvd d
    have hp10 : d.minFac ∣ 10 := hp.dvd_of_dvd_pow (dvd_trans hpd hd)
    set p := d.minFac with hpdef
    set e := d / p with hedef
    have hde : p * e = d := Nat.mul_div_cancel' hpd
    have hep : e ∣ d := ⟨p, by rw [← hde]; ring⟩
    have helt : e < d := by
      have hp2 : 2 ≤ p := hp.two_le
      have : 0 < d := hpos
      exact Nat.div_lt_self this (by omega)
    have hepos : 0 < e := by
      rcases Nat.eq_zero_or_pos e with h | h
      · exfalso; rw [h, Nat.mul_zero] at hde; omega
      · exact h
    have he10 : e ∣ 10 ^ e := ih e helt ⟨K, dvd_trans hep hd⟩
    have step : d ∣ 10 ^ (e + 1) := by
      rw [← hde, pow_succ, Nat.mul_comm (10 ^ e) 10]
      exact mul_dvd_mul hp10 he10
    have hle : e + 1 ≤ d := by
      have hp2 : 2 ≤ p := hp.two_le
      calc e + 1 ≤ e + e := by omega
      _ ≤ p * e := by nlinarith
      _ = d := hde
    exact dvd_trans step (pow_dvd_pow 10 hle)

/-! ### Parsing a plain decimal string -/

theorem splitSign_not_sign {c : Char} (r : List Char) (h1 : c ≠ '+') (h2 : c ≠ '-') :
    splitSign (c :: r) = (1, c :: r) := by
  simp only [splitSign]
  rw [if_neg h1, if_neg h2]

theorem splitSign_minus (r : List Char) : splitSign ('-' :: r) = (-1, r) := by
  simp [splitSign]

theorem cons_ne_of_head_ne {c d : Char} {x y : List Char} (h : c ≠ d) :
    c :: x ≠ d :: y := by
  intro he
  injection he with h1 _
  exact h h1

theorem digit_ne {c : Char} (h : isDigitC c = true) {d : Char}
    (hd : d.toNat < 48 ∨ 57 < d.toNat) : c ≠ d :=
  ne_of_digit_toNat h hd

/-- Parsing the mantissa stage on a pure decimal string `ipD.frD`. -/
theorem pyFloatMant_decimal (sg : ℤ) (ipD frD : List Char)
    (hip : ∀ c ∈ ipD, isDigitC c = true) (hfr : ∀ c ∈ frD, isDigitC c = true)
    (hipne : ipD ≠ []) :
    pyFloatMant sg (ipD ++ '.' :: frD) = some (PyFloat.finite (mantissaVal sg ipD frD)) := by
  obtain ⟨htw, hdw⟩ := twBoundary (p := isDigitC) (x := '.') frD hip (by decide)
  simp only [pyFloatMant, htw, hdw]
  have hfs : fracSplit ('.' :: frD) = (frD, []) := by
    simp only [fracSplit]
    rw [twAll hfr, dwAll hfr]
  rw [hfs]
  rw [if_neg (by intro hc; exact hipne hc.1)]
  show some (PyFloat.finite (mantissaVal sg ipD frD * qpow10z 0)) = _
  have : qpow10z 0 = 1 := by unfold qpow10z; simp [qpow10]
  rw [this, mul_one]

/-- A nonempty digit-headed string is not `inf`/`infinity`/`nan`. -/
theorem low_not_special {c : Char} (rest : List Char) (hc : isDigitC c = true) :
    ¬((asciiLower c :: rest) = "inf".toList ∨ (asciiLower c :: rest) = "infinity".toList)
      ∧ (asciiLower c :: rest) ≠ "nan".toList := by
  rw [asciiLower_digit hc]
  have hinf : "inf".toList = 'i' :: "nf".toList := rfl
  have hinfy : "infinity".toList = 'i' :: "nfinity".toList := rfl
  have hnan : "nan".toList = 'n' :: "an".toList := rfl
  refine ⟨?_, ?_⟩
  · intro h
    rcases h with h | h
    · rw [hinf] at h
      exact cons_ne_of_head_ne (digit_ne hc (by decide)) h
    · rw [hinfy] at h
      exact cons_ne_of_head_ne (digit_ne hc (by decide)) h
  · rw [hnan]
    exact cons_ne_of_head_ne (digit_ne hc (by decide))

/-- `float()` on a nonnegative decimal string `ipD.frD`. -/
theorem pyFloatNum_decimal (ipD frD : List Char)
    (hip : ∀ c ∈ ipD, isDigitC c = true) (hfr : ∀ c ∈ frD, isDigitC c = true)
    (hipne : ipD ≠ []) :
    pyFloatNum (ipD ++ '.' :: frD) = some (PyFloat.finite (mantissaVal 1 ipD frD)) := by
  obtain ⟨c, ipT, rfl⟩ : ∃ c ipT, ipD = c :: ipT := by
    cases ipD with
    | nil => exact absurd rfl hipne
    | cons c t => exact ⟨c, t, rfl⟩
  have hc : isDigitC c = true := hip c (List.mem_cons_self c ipT)
  have hsp := splitSign_not_sign (ipT ++ '.' :: frD)
    (digit_ne hc (by decide)) (digit_ne hc (by decide))
  have hlow := low_not_special (List.map asciiLower (ipT ++ '.' :: frD)) hc
  simp only [pyFloatNum, List.cons_append, hsp, List.map_cons]
  rw [if_neg hlow.1, if_neg hlow.2]
  exact pyFloatMant_decimal 1 (c :: ipT) frD hip hfr hipne

/-- `float()` on a negated decimal string `-ipD.frD`. -/
theorem pyFloatNum_neg_decimal (ipD frD : List Char)
    (hip : ∀ c ∈ ipD, isDigitC c = true) (hfr : ∀ c ∈ frD, isDigitC c = true)
    (hipne : ipD ≠ []) :
    pyFloatNum ('-' :: (ipD ++ '.' :: frD))
      = some (PyFloat.finite (mantissaVal (-1) ipD frD)) := by
  obtain ⟨c, ipT, rfl⟩ : ∃ c ipT, ipD = c :: ipT := by
    cases ipD with
    | nil => exact absurd rfl hipne
    | cons c t => exact ⟨c, t, rfl⟩
  have hc : isDigitC c = true := hip c (List.mem_cons_self c ipT)
  have hlow := low_not_special (List.map asciiLower (ipT ++ '.' :: frD)) hc
  simp only [pyFloatNum, splitSign_minus, List.cons_append, List.map_cons]
  rw [if_neg hlow.1, if_neg hlow.2]
  exact pyFloatMant_decimal (-1) (c :: ipT) frD hip hfr hipne

theorem mantissaVal_neg_sign (ip fp : List Char) :
    mantissaVal (-1) ip fp = -(mantissaVal 1 ip fp) := by
  unfold mantissaVal
  push_cast
  ring

/-! ### The decimal representation of a parseable float parses back to it -/

theorem floatRepr_finite_spec {q : ℚ} (hd : q.den ∣ 10 ^ q.den) :
    (∀ c ∈ floatRepr (PyFloat.finite q), isDigitC c = true ∨ c = '.' ∨ c = '-')
      ∧ pyFloatNum (floatRepr (PyFloat.finite q)) = some (PyFloat.finite q) := by
  set a : ℚ := if q < 0 then -q else q with ha
  have ha_den : a.den = q.den := by
    rw [ha]
    by_cases hq : q < 0
    · rw [if_pos hq, Rat.neg_den]
    · rw [if_neg hq]
  have ha_nonneg : 0 ≤ a := by
    rw [ha]
    by_cases hq : q < 0
    · rw [if_pos hq]; linarith
    · rw [if_neg hq]; linarith
  set k : ℕ := a.den with hk
  have hk1 : 1 ≤ k := by
    rw [hk]
    exact Rat.den_pos a
  have hdvd : k ∣ 10 ^ k := by
    rw [ha_den]
    exact hd
  obtain ⟨c0, hc0⟩ := hdvd
  set scaled : ℚ := a * qpow10 k with hscaled
  have hden_ne : ((a.den : ℚ)) ≠ 0 := by
    have := Rat.den_pos a
    exact_mod_cast Nat.pos_iff_ne_zero.mp this
  have hmul_den : a * ((a.den : ℚ)) = (a.num : ℚ) := by
    calc a * ((a.den : ℚ)) = ((a.num : ℚ) / (a.den : ℚ)) * (a.den : ℚ) := by
          rw [Rat.num_div_den]
    _ = (a.num : ℚ) := div_mul_cancel₀ _ hden_ne
  have hscaled_int : scaled = (((a.num * (c0 : ℤ) : ℤ)) : ℚ) := by
    rw [hscaled, qpow10_eq]
    have h1 : ((10 : ℚ) ^ k) = (((10 ^ k : ℕ)) : ℚ) := by push_cast; ring
    rw [h1, hc0]
    push_cast
    have hka : ((k : ℚ)) = ((a.den : ℚ)) := by rw [hk]
    rw [← mul_assoc, hka, hmul_den]
  have hden1 : scaled.den = 1 := by
    rw [hscaled_int]
    exact Rat.den_intCast _
  have hnum : scaled.num = a.num * (c0 : ℤ) := by
    rw [hscaled_int]
    exact Rat.num_intCast _
  set m : ℕ := scaled.num.toNat with hm
  have hm_nonneg : 0 ≤ scaled.num := by
    rw [hnum]
    have h1 : 0 ≤ a.num := Rat.num_nonneg.mpr ha_nonneg
    exact mul_nonneg h1 (Int.natCast_nonneg c0)
  have hmz : ((m : ℤ)) = scaled.num := by
    rw [hm]
    exact Int.toNat_of_nonneg hm_nonneg
  have hmq : ((m : ℚ)) = a * qpow10 k := by
    have hsc : ((scaled.num : ℤ) : ℚ) = scaled := by
      rw [hnum, hscaled_int]
    have hms : ((m : ℚ)) = scaled := by
      rw [← hsc, ← hmz]
      push_cast
      ring
    exact hms.trans hscaled
  set ip : ℕ := m / 10 ^ k with hip
  set fp : ℕ := m % 10 ^ k with hfp
  have hten_pos : 0 < 10 ^ k := pow_pos (by norm_num) k
  have hfp_lt : fp < 10 ^ k := by
    rw [hfp]
    exact Nat.mod_lt _ hten_pos
  have hm_split : m = ip * 10 ^ k + fp := by
    have h := Nat.div_add_mod m (10 ^ k)
    rw [Nat.mul_comm] at h
    rw [hip, hfp]
    exact h.symm
  set ipD : List Char := natToDigits ip with hipD
  set fds : List Char := natToDigits fp with hfds
  have hlen : fds.length ≤ k := by
    rw [hfds]
    exact natToDigits_length hk1 hfp_lt
  set pad : List Char := List.replicate (k - fds.length) '0' ++ fds with hpad
  have hpad_val : natOfDigits pad = fp := by
    rw [hpad, natOfDigits_zeros_front, hfds, natOfDigits_natToDigits]
  have hpad_digits : ∀ c ∈ pad, isDigitC c = true := by
    intro c hc
    rw [hpad] at hc
    rcases List.mem_append.mp hc with h | h
    · have : c = '0' := List.eq_of_mem_replicate h
      subst this
      decide
    · rw [hfds] at h
      exact natToDigits_digits fp c h
  set zt : List Char := pad.reverse.takeWhile (fun c => decide (c = '0')) with hzt
  set t : List Char := (pad.reverse.dropWhile (fun c => decide (c = '0'))).reverse with ht
  have hdecomp : pad = t ++ List.replicate zt.length '0' := by
    conv_lhs => rw [← List.reverse_reverse pad]
    rw [← List.takeWhile_append_dropWhile (p := fun c => decide (c = '0')) (l := pad.reverse)]
    rw [List.reverse_append]
    congr 1
    rw [List.eq_replicate_iff]
    constructor
    · rw [List.length_reverse]
    · intro b hb
      have := List.mem_takeWhile_imp (List.mem_reverse.mp hb)
      simpa using this
  have hpadlen : pad.length = k := by
    rw [hpad]
    simp only [List.length_append, List.length_replicate]
    omega
  have hlen_split : t.length + zt.length = k := by
    have := congrArg List.length hdecomp
    simp only [List.length_append, List.length_replicate] at this
    omega
  set frD : List Char := if t = [] then ['0'] else t with hfrD
  have ht_sub : ∀ c ∈ t, c ∈ pad := by
    intro c hc
    rw [hdecomp]
    exact List.mem_append_left _ hc
  have hfrD_digits : ∀ c ∈ frD, isDigitC c = true := by
    rw [hfrD]
    by_cases h0 : t = []
    · rw [if_pos h0]
      intro c hc
      simp at hc
      subst hc
      decide
    · rw [if_neg h0]
      intro c hc
      exact hpad_digits c (ht_sub c hc)
  have hfrac : (natOfDigits frD : ℚ) / qpow10 frD.length = (fp : ℚ) / qpow10 k := by
    rw [hfrD]
    by_cases h0 : t = []
    · have hfp0 : fp = 0 := by
        rw [← hpad_val, hdecomp, h0]
        simp [natOfDigits_replicate_zero]
      rw [if_pos h0, hfp0]
      have h01 : natOfDigits ['0'] = 0 := by decide
      rw [h01]
      norm_num
    · rw [if_neg h0]
      have hval : natOfDigits t * 10 ^ zt.length = fp := by
        rw [← hpad_val, hdecomp, natOfDigits_zeros_back]
      rw [← hval]
      rw [qpow10_eq, qpow10_eq, ← hlen_split, pow_add]
      push_cast
      rw [← mul_div_mul_right ((natOfDigits t : ℚ)) ((10 : ℚ) ^ t.length) (by positivity : ((10 : ℚ) ^ zt.length) ≠ 0)]
  have hmant : mantissaVal 1 ipD frD = a := by
    unfold mantissaVal
    rw [hfrac, hipD, natOfDigits_natToDigits]
    have hcast : (((ip * 10 ^ k + fp : ℕ)) : ℚ) = a * qpow10 k := by
      rw [← hm_split]
      exact hmq
    push_cast at hcast
    rw [qpow10_eq] at hcast ⊢
    have h10 : ((10 : ℚ) ^ k) ≠ 0 := by positivity
    field_simp
    linarith [hcast]
  have hipD_digits : ∀ c ∈ ipD, isDigitC c = true := by
    rw [hipD]
    exact natToDigits_digits ip
  have hipD_ne : ipD ≠ [] := by
    rw [hipD]
    exact natToDigits_ne_nil ip
  have hrepr : floatRepr (PyFloat.finite q)
      = (if q < 0 then ['-'] else []) ++ ipD ++ '.' :: frD := by
    simp only [floatRepr]
    rw [← ha, ← hk, ← hscaled, if_pos hden1, ← hm, ← hip, ← hfp, ← hfds, ← hpad, ← ht, ← hfrD]
  constructor
  · intro c hc
    rw [hrepr] at hc
    rcases List.mem_append.mp hc with h | h
    · rcases List.mem_append.mp h with h | h
      · by_cases hq : q < 0
        · rw [if_pos hq] at h
          simp at h
          subst h
          right; right; rfl
        · rw [if_neg hq] at h
          simp at h
      · exact Or.inl (hipD_digits c h)
    · rcases List.mem_cons.mp h with h | h
      · subst h
        right; left; rfl
      · exact Or.inl (hfrD_digits c h)
  · rw [hrepr]
    by_cases hq : q < 0
    · rw [if_pos hq]
      rw [List.singleton_append, List.cons_append]
      rw [pyFloatNum_neg_decimal ipD frD hipD_digits hfrD_digits hipD_ne]
      rw [mantissaVal_neg_sign, hmant]
      have : a = -q := by rw [ha, if_pos hq]
      rw [this, neg_neg]
    · rw [if_neg hq]
      rw [List.nil_append]
      rw [pyFloatNum_decimal ipD frD hipD_digits hfrD_digits hipD_ne]
      rw [hmant]
      have : a = q := by rw [ha, if_neg hq]
      rw [this]

/-! ### `sanitize_amount` on its own float outputs -/

theorem removeDollars_id {l : List Char} (h : ∀ c ∈ l, c ≠ '$') :
    removeDollars l = l := by
  induction l with
  | nil => rfl
  | cons c t ih =>
    unfold removeDollars
    rw [List.filter_cons]
    rw [if_pos (by simp [h c (List.mem_cons_self c t)])]
    rw [show List.filter (fun c => decide (c ≠ '$')) t = removeDollars t from rfl]
    rw [ih (fun d hd => h d (List.mem_cons_of_mem c hd))]

theorem sanitize_amount_of_parse {a : PyVal} (h : a ≠ PyVal.vNone) :
    sanitize_amount a
      = (match pyFloatParse (strip (removeDollars (pyStr a))) with
        | some f => PyVal.vFloat f
        | none => PyVal.vNone) := by
  unfold sanitize_amount
  rw [if_neg h]

theorem sanitize_vFloat_roundtrip {f : PyFloat} (hf : ∃ s, pyFloatParse s = some f) :
    sanitize_amount (PyVal.vFloat f) = PyVal.vFloat f := by
  cases f with
  | inf => with_unfolding_all decide
  | ninf => with_unfolding_all decide
  | nan => with_unfolding_all decide
  | finite q =>
    obtain ⟨s, hs⟩ := hf
    obtain ⟨M, K, hMK⟩ := pyFloatNum_finite_range hs
    have hdq : q.den ∣ 10 ^ q.den :=
      dvd_ten_pow_self q.den ⟨K, den_dvd_of_div_pow hMK⟩
    obtain ⟨hchars, hparse⟩ := floatRepr_finite_spec hdq
    have hnd : ∀ c ∈ floatRepr (PyFloat.finite q), c ≠ '$' := by
      intro c hc
      rcases hchars c hc with h | h | h
      · exact digit_ne h (by decide)
      · subst h; decide
      · subst h; decide
    have hns : ∀ c ∈ floatRepr (PyFloat.finite q), isPySpace c = false := by
      intro c hc
      rcases hchars c hc with h | h | h
      · exact not_space_of_digit h
      · subst h; decide
      · subst h; decide
    rw [sanitize_amount_of_parse (by intro h; cases h)]
    show (match pyFloatParse (strip (removeDollars (floatRepr (PyFloat.finite q)))) with
      | some f => PyVal.vFloat f
      | none => PyVal.vNone) = _
    rw [removeDollars_id hnd, strip_no_space hns]
    rw [show pyFloatParse (floatRepr (PyFloat.finite q))
      = pyFloatNum (strip (floatRepr (PyFloat.finite q))) from rfl]
    rw [strip_no_space hns, hparse]

theorem sanitize_amount_cases (a : PyVal) :
    sanitize_amount a = PyVal.vNone
      ∨ ∃ f, sanitize_amount a = PyVal.vFloat f
          ∧ pyFloatParse (strip (removeDollars (pyStr a))) = some f := by
  by_cases h : a = PyVal.vNone
  · subst h
    exact Or.inl rfl
  · rw [sanitize_amount_of_parse h]
    cases hp : pyFloatParse (strip (removeDollars (pyStr a))) with
    | none => exact Or.inl rfl
    | some f => exact Or.inr ⟨f, rfl, rfl⟩

/-! ### Association-list dict lemmas -/

theorem alGet_alSet_self (m : List (PyVal × PyFloat)) (k : PyVal) (v : PyFloat) :
    alGet (alSet m k v) k = some v := by
  induction m with
  | nil => simp [alGet, alSet]
  | cons p t ih =>
    unfold alSet
    by_cases h : p.1 = k
    · rw [if_pos h]
      unfold alGet
      rw [if_pos h]
    · rw [if_neg h]
      unfold alGet
      rw [if_neg h]
      exact ih

theorem alGet_alSet_other (m : List (PyVal × PyFloat)) {k key : PyVal} (v : PyFloat)
    (h : key ≠ k) : alGet (alSet m k v) key = alGet m key := by
  induction m with
  | nil =>
    simp only [alSet, alGet]
    rw [if_neg (fun he => h he.symm)]
  | cons p t ih =>
    unfold alSet
    by_cases hp : p.1 = k
    · rw [if_pos hp]
      unfold alGet
      by_cases hpk : p.1 = key
      · exact absurd (hpk.symm.trans hp) h
      · rw [if_neg hpk, if_neg hpk]
    · rw [if_neg hp]
      unfold alGet
      by_cases hpk : p.1 = key
      · rw [if_pos hpk, if_pos hpk]
      · rw [if_neg hpk, if_neg hpk]
        exact ih

/-! ### Date-order trichotomy -/

theorem not_dateLt_iff (a b : Date) : ¬ dateLt a b ↔ dateLe b a := by
  unfold dateLt dateLe
  constructor
  · intro h
    by_cases h1 : b.year < a.year
    · exact Or.inl h1
    · have h2 : b.year = a.year ∧ (b.month < a.month ∨ (b.month = a.month ∧ b.day ≤ a.day)) := by
        push_neg at h
        omega
      exact Or.inr h2
  · intro h hlt
    rcases h with h | ⟨h1, h2⟩ <;> rcases hlt with hl | ⟨hl1, hl2⟩ <;> omega

/-! ### Record qualification for the range total -/

/-- The contribution of a record to the range total: its amount, provided
the record's date parses, lies in the inclusive range `[S, E]`, and the
amount is a number.  This is the specification-side filter the range
total is proved equivalent to. -/
def qualifyingAmount (S E : Date) (r : Record) : Option PyFloat :=
  match parse_date (pyGet r.date) with
  | none => none
  | some d => if dateLe S d ∧ dateLe d E then asNum (pyGet r.amount) else none

theorem calcStep_qualifying (S E : Date) (total : PyFloat) (nr : String × Record) :
    calcStep S E total nr
      = (match qualifyingAmount S E nr.2 with
        | none => total
        | some a => pyAdd total a) := by
  unfold calcStep qualifyingAmount
  cases hp : parse_date (pyGet nr.2.date) with
  | none => rfl
  | some d =>
    show (if dateLt d S ∨ dateLt E d then total
        else match asNum (pyGet nr.2.amount) with
          | none => total
          | some a => pyAdd total a)
      = (match (if dateLe S d ∧ dateLe d E then asNum (pyGet nr.2.amount) else none) with
          | none => total
          | some a => pyAdd total a)
    by_cases hin : dateLe S d ∧ dateLe d E
    · have hnlt : ¬(dateLt d S ∨ dateLt E d) := by
        intro hor
        rcases hor with h | h
        · exact ((not_dateLt_iff d S).mpr hin.1) h
        · exact ((not_dateLt_iff E d).mpr hin.2) h
      rw [if_pos hin, if_neg hnlt]
    · have hlt : dateLt d S ∨ dateLt E d := by
        by_contra hno
        push_neg at hno
        exact hin ⟨(not_dateLt_iff d S).mp hno.1, (not_dateLt_iff E d).mp hno.2⟩
      rw [if_neg hin, if_pos hlt]

theorem foldl_calcStep_filterMap (S E : Date) : ∀ (l : Collection) (acc : PyFloat),
    l.foldl (calcStep S E) acc
      = (l.filterMap (fun nr => qualifyingAmount S E nr.2)).foldl pyAdd acc := by
  intro l
  induction l with
  | nil => intro acc; rfl
  | cons hd tl ih =>
    intro acc
    rw [List.foldl_cons, List.filterMap_cons, calcStep_qualifying]
    cases qualifyingAmount S E hd.2 with
    | none => exact ih acc
    | some a =>
      rw [List.foldl_cons]
      exact ih (pyAdd acc a)

/-! ### Support definitions for the claims -/

/-- Modelled from the spec's words for the C1 refinement comparison:
stripping only a single LEADING `$` (the spec and claim say "strip a
leading currency symbol (`$`) if present"), to be compared with the
source's `removeDollars`, which removes every `$`. -/
def specStripLeadingDollar (l : List Char) : List Char :=
  match l with
  | '$' :: r => r
  | r => r

/-- A record with a date string, an amount value and an optional category
key (vendor absent), used to build concrete test collections. -/
def mkRec (d : String) (a : PyVal) (c : Option PyVal) : Record :=
  ⟨some (PyVal.vStr d.toList), some a, none, c⟩

/-- The spec's end-to-end example collection: records `a`, `b`, `c`, with
`b`'s string amount `"$5"` pre-normalized through the Normalizer as the
spec prescribes. -/
def exampleCollection : Collection :=
  [("a", mkRec "2024-02-01" (PyVal.vFloat (PyFloat.finite 10))
      (some (PyVal.vStr "Meals".toList))),
   ("b", mkRec "2024-02-15" (sanitize_amount (PyVal.vStr "$5".toList))
      (some (PyVal.vStr "Meals".toList))),
   ("c", mkRec "2024-03-01" PyVal.vNone (some (PyVal.vStr "Other".toList)))]

/-- Two records whose categories differ only in case. -/
def mealsCasePair : Collection :=
  [("x", mkRec "2024-01-01" (PyVal.vFloat (PyFloat.finite 3))
      (some (PyVal.vStr "Meals".toList))),
   ("y", mkRec "2024-01-02" (PyVal.vFloat (PyFloat.finite 5))
      (some (PyVal.vStr "meals".toList)))]

/-- A one-record collection with the given date and amount `7.0`. -/
def soloDateRec (d : String) : Collection :=
  [("r", mkRec d (PyVal.vFloat (PyFloat.finite 7)) none)]

/-! ### Claim C1 -/

/-- C1 (counterexample): the claim says every input that is not coercible
to a number after stripping only a LEADING `$` and surrounding whitespace
maps to `None`.  The input `"4$3"` has an interior `$`, is not coercible
under the claim's reading, yet `sanitize_amount` removes every `$`
(`str.replace`), parses `"43"`, and returns `43.0`, not `None`. -/
theorem C1_counterexample :
    pyFloatParse (strip (specStripLeadingDollar (pyStr (PyVal.vStr "4$3".toList)))) = none
      ∧ sanitize_amount (PyVal.vStr "4$3".toList) = PyVal.vFloat (PyFloat.finite 43)
      ∧ sanitize_amount (PyVal.vStr "4$3".toList) ≠ PyVal.vNone := by
  with_unfolding_all decide

/-- C1 (amended): for every input that is `None`, or whose text form is
non-numeric after removing EVERY `$` character (`str.replace("$", "")`)
and stripping surrounding whitespace, `sanitize_amount` returns `None`;
the text transformations applied before the parse are removal of all `$`
characters (not only a leading one) and whitespace stripping. -/
theorem C1_normalizer_none_amended (a : PyVal)
    (h : a = PyVal.vNone ∨ pyFloatParse (strip (removeDollars (pyStr a))) = none) :
    sanitize_amount a = PyVal.vNone := by
  rcases h with h | h
  · subst h
    rfl
  · by_cases hn : a = PyVal.vNone
    · subst hn
      rfl
    · rw [sanitize_amount_of_parse hn, h]

/-- C1 (witness): the amended theorem applied to the non-numeric input
`"N/A"`. -/
theorem C1_normalizer_none_amended_witness :
    sanitize_amount (PyVal.vStr "N/A".toList) = PyVal.vNone :=
  C1_normalizer_none_amended (PyVal.vStr "N/A".toList)
    (Or.inr (by with_unfolding_all decide))

/-! ### Claim C2 -/

/-- C2 (counterexample): on the spec's example collection (with `b`'s
amount pre-normalized to `5.0`), the category totals are `{Meals: 15.0}`
as claimed, but the range total for 2024-02-01..2024-02-28 is `15.0`, not
the claimed `10.0`: record `b` (2024-02-15, amount 5.0) lies inside the
range, so the spec's example is internally inconsistent. -/
theorem C2_counterexample :
    aggregate_by_category exampleCollection
        = [(PyVal.vStr "Meals".toList, PyFloat.finite 15)]
      ∧ calculate_expenses exampleCollection (PyVal.vStr "2024-02-01".toList)
          (PyVal.vStr "2024-02-28".toList) = PyFloat.finite 15
      ∧ PyFloat.finite 15 ≠ PyFloat.finite 10 := by
  with_unfolding_all decide

/-- C2 (amended): for the spec's collection with amounts pre-normalized,
`aggregate_by_category` returns exactly `{Meals: 15.0}` (record `c`
excluded), and `calculate_expenses` for 2024-02-01..2024-02-28 returns
exactly `15.0` (records `a` and `b` both fall in the range; `c` has no
numeric amount). -/
theorem C2_example_amended :
    aggregate_by_category exampleCollection
        = [(PyVal.vStr "Meals".toList, PyFloat.finite 15)]
      ∧ calculate_expenses exampleCollection (PyVal.vStr "2024-02-01".toList)
          (PyVal.vStr "2024-02-28".toList) = PyFloat.finite 15 := by
  with_unfolding_all decide

/-! ### Claim C4 -/

/-- C4: whenever the start or the end argument fails `YYYY-MM-DD` parsing,
`calculate_expenses` returns `0.0` regardless of the records (the model
is total, so no exception escapes). -/
theorem C4_invalid_range_zero (data : Collection) (s e : PyVal)
    (h : parse_date s = none ∨ parse_date e = none) :
    calculate_expenses data s e = PyFloat.finite 0 := by
  unfold calculate_expenses
  rcases h with h | h
  · rw [h]
  · rw [h]
    cases parse_date s <;> rfl

/-- C4 (witness): a malformed start date yields a zero range total on the
example collection. -/
theorem C4_invalid_range_zero_witness :
    calculate_expenses exampleCollection (PyVal.vStr "2024-13-01".toList)
      (PyVal.vStr "2024-03-01".toList) = PyFloat.finite 0 :=
  C4_invalid_range_zero exampleCollection (PyVal.vStr "2024-13-01".toList)
    (PyVal.vStr "2024-03-01".toList) (Or.inl (by decide))

/-! ### Claim C3 -/

/-- C3: with parseable bounds, the range total equals the `pyAdd`-fold of
exactly those amounts whose record has a parseable date inside the
inclusive range `[S, E]` (exactly the records strictly before `S` or
strictly after `E` are excluded); in particular a record dated 2024-01-01 is
excluded from the range 2024-02-01..2024-03-01 while records dated
exactly on either boundary are included. -/
theorem C3_range_filter (data : Collection) (s e : PyVal) (S E : Date)
    (hs : parse_date s = some S) (he : parse_date e = some E) :
    calculate_expenses data s e
        = (data.filterMap (fun nr => qualifyingAmount S E nr.2)).foldl pyAdd
            (PyFloat.finite 0)
      ∧ calculate_expenses (soloDateRec "2024-01-01")
          (PyVal.vStr "2024-02-01".toList) (PyVal.vStr "2024-03-01".toList)
          = PyFloat.finite 0
      ∧ calculate_expenses (soloDateRec "2024-02-01")
          (PyVal.vStr "2024-02-01".toList) (PyVal.vStr "2024-03-01".toList)
          = PyFloat.finite 7
      ∧ calculate_expenses (soloDateRec "2024-03-01")
          (PyVal.vStr "2024-02-01".toList) (PyVal.vStr "2024-03-01".toList)
          = PyFloat.finite 7 := by
  refine ⟨?_, by with_unfolding_all decide, by with_unfolding_all decide,
    by with_unfolding_all decide⟩
  unfold calculate_expenses
  rw [hs, he]
  exact foldl_calcStep_filterMap S E data (PyFloat.finite 0)

/-- C3 (witness): the filter equivalence and the boundary examples at the
concrete range 2024-02-01..2024-03-01 over the example collection. -/
theorem C3_range_filter_witness :
    (calculate_expenses exampleCollection (PyVal.vStr "2024-02-01".toList)
        (PyVal.vStr "2024-03-01".toList)
      = (exampleCollection.filterMap
          (fun nr => qualifyingAmount ⟨2024, 2, 1⟩ ⟨2024, 3, 1⟩ nr.2)).foldl pyAdd
          (PyFloat.finite 0))
      ∧ calculate_expenses (soloDateRec "2024-01-01")
          (PyVal.vStr "2024-02-01".toList) (PyVal.vStr "2024-03-01".toList)
          = PyFloat.finite 0
      ∧ calculate_expenses (soloDateRec "2024-02-01")
          (PyVal.vStr "2024-02-01".toList) (PyVal.vStr "2024-03-01".toList)
          = PyFloat.finite 7
      ∧ calculate_expenses (soloDateRec "2024-03-01")
          (PyVal.vStr "2024-02-01".toList) (PyVal.vStr "2024-03-01".toList)
          = PyFloat.finite 7 :=
  C3_range_filter exampleCollection (PyVal.vStr "2024-02-01".toList)
    (PyVal.vStr "2024-03-01".toList) ⟨2024, 2, 1⟩ ⟨2024, 3, 1⟩
    (by decide) (by decide)

/-! ### Claim C5 -/

theorem space_ne_dollar {c : Char} (h : isPySpace c = true) : c ≠ '$' := by
  intro he
  subst he
  exact absurd h (by decide)

theorem removeDollars_append (x y : List Char) :
    removeDollars (x ++ y) = removeDollars x ++ removeDollars y :=
  List.filter_append x y

/-- C5: every string made of whitespace, an optional leading `$`, a valid
numeric core and trailing whitespace is normalized to exactly the value
the core denotes; in particular `" $43.83 "` yields `43.83` and `"70.74"`
yields `70.74`.  (A valid numeric literal contains no `$`, which the
hypothesis `hcore` records.) -/
theorem C5_normalizer_exact (w1 w2 core : List Char) (dollar : Bool) (q : ℚ)
    (hw1 : ∀ c ∈ w1, isPySpace c = true) (hw2 : ∀ c ∈ w2, isPySpace c = true)
    (hcore : ∀ c ∈ core, c ≠ '$')
    (hq : pyFloatParse core = some (PyFloat.finite q)) :
    sanitize_amount
        (PyVal.vStr (w1 ++ (if dollar then ['$'] else []) ++ core ++ w2))
        = PyVal.vFloat (PyFloat.finite q)
      ∧ sanitize_amount (PyVal.vStr " $43.83 ".toList)
          = PyVal.vFloat (PyFloat.finite (43 + 83 / 100))
      ∧ sanitize_amount (PyVal.vStr "70.74".toList)
          = PyVal.vFloat (PyFloat.finite (70 + 74 / 100)) := by
  refine ⟨?_, by with_unfolding_all decide, by with_unfolding_all decide⟩
  have hdol : removeDollars (if dollar then ['$'] else []) = [] := by
    cases dollar <;> rfl
  have hrm : removeDollars (w1 ++ (if dollar then ['$'] else []) ++ core ++ w2)
      = w1 ++ core ++ w2 := by
    rw [removeDollars_append, removeDollars_append, removeDollars_append, hdol]
    rw [removeDollars_id (fun c hc => space_ne_dollar (hw1 c hc)),
      removeDollars_id hcore,
      removeDollars_id (fun c hc => space_ne_dollar (hw2 c hc))]
    rw [List.append_nil]
  rw [sanitize_amount_of_parse (by intro hh; cases hh)]
  show (match pyFloatParse
      (strip (removeDollars (w1 ++ (if dollar then ['$'] else []) ++ core ++ w2))) with
    | some f => PyVal.vFloat f
    | none => PyVal.vNone) = PyVal.vFloat (PyFloat.finite q)
  rw [hrm, strip_outer core hw1 hw2, pyFloatParse_strip, hq]

/-- C5 (witness): the general statement applied to the decomposition of
`" $43.83 "` into whitespace, `$`, the core `"43.83"` and whitespace. -/
theorem C5_normalizer_exact_witness :
    sanitize_amount
        (PyVal.vStr ([' '] ++ (if true then ['$'] else []) ++ "43.83".toList ++ [' ']))
        = PyVal.vFloat (PyFloat.finite (43 + 83 / 100))
      ∧ sanitize_amount (PyVal.vStr " $43.83 ".toList)
          = PyVal.vFloat (PyFloat.finite (43 + 83 / 100))
      ∧ sanitize_amount (PyVal.vStr "70.74".toList)
          = PyVal.vFloat (PyFloat.finite (70 + 74 / 100)) :=
  C5_normalizer_exact [' '] [' '] "43.83".toList true (43 + 83 / 100)
    (by decide) (by decide) (by decide) (by with_unfolding_all decide)

/-! ### Claim C6 -/

theorem calcStep_skip {nr : String × Record} (h : asNum (pyGet nr.2.amount) = none)
    (S E : Date) (acc : PyFloat) : calcStep S E acc nr = acc := by
  unfold calcStep
  cases parse_date (pyGet nr.2.date) with
  | none => rfl
  | some d =>
    show (if dateLt d S ∨ dateLt E d then acc
      else match asNum (pyGet nr.2.amount) with
        | none => acc
        | some a => pyAdd acc a) = acc
    by_cases hin : dateLt d S ∨ dateLt E d
    · rw [if_pos hin]
    · rw [if_neg hin, h]

theorem aggStep_skip {nr : String × Record} (h : asNum (pyGet nr.2.amount) = none)
    (totals : List (PyVal × PyFloat)) : aggStep totals nr = totals := by
  unfold aggStep
  rw [h]

/-- C6: a record whose amount is absent (`None`) or not a number is
skipped by both aggregations: inserting it anywhere in the collection
leaves both the range total and the category totals unchanged (and, the
model being total, neither operation raises an error because of it). -/
theorem C6_invalid_amount_skipped (d1 d2 : Collection) (n : String) (r : Record)
    (s e : PyVal) (h : asNum (pyGet r.amount) = none) :
    calculate_expenses (d1 ++ (n, r) :: d2) s e = calculate_expenses (d1 ++ d2) s e
      ∧ aggregate_by_category (d1 ++ (n, r) :: d2) = aggregate_by_category (d1 ++ d2) := by
  constructor
  · unfold calculate_expenses
    cases hs : parse_date s with
    | none => rfl
    | some S =>
      cases he : parse_date e with
      | none => rfl
      | some E =>
        show List.foldl (calcStep S E) (PyFloat.finite 0) (d1 ++ (n, r) :: d2)
          = List.foldl (calcStep S E) (PyFloat.finite 0) (d1 ++ d2)
        rw [List.foldl_append, List.foldl_append, List.foldl_cons,
          calcStep_skip h]
  · unfold aggregate_by_category
    rw [List.foldl_append, List.foldl_append, List.foldl_cons, aggStep_skip h]

/-- C6 (witness): inserting a record with amount `None` and one with a
string amount between the records of the example collection changes
neither aggregation. -/
theorem C6_invalid_amount_skipped_witness :
    (calculate_expenses
        ([("a", mkRec "2024-02-01" (PyVal.vFloat (PyFloat.finite 10))
            (some (PyVal.vStr "Meals".toList)))]
          ++ ("z", mkRec "2024-02-10" PyVal.vNone none)
            :: [("b", mkRec "2024-02-15" (PyVal.vFloat (PyFloat.finite 5))
              (some (PyVal.vStr "Meals".toList)))])
        (PyVal.vStr "2024-02-01".toList) (PyVal.vStr "2024-02-28".toList)
      = calculate_expenses
        ([("a", mkRec "2024-02-01" (PyVal.vFloat (PyFloat.finite 10))
            (some (PyVal.vStr "Meals".toList)))]
          ++ [("b", mkRec "2024-02-15" (PyVal.vFloat (PyFloat.finite 5))
            (some (PyVal.vStr "Meals".toList)))])
        (PyVal.vStr "2024-02-01".toList) (PyVal.vStr "2024-02-28".toList))
      ∧ aggregate_by_category
          ([("a", mkRec "2024-02-01" (PyVal.vFloat (PyFloat.finite 10))
              (some (PyVal.vStr "Meals".toList)))]
            ++ ("z", mkRec "2024-02-10" PyVal.vNone none)
              :: [("b", mkRec "2024-02-15" (PyVal.vFloat (PyFloat.finite 5))
                (some (PyVal.vStr "Meals".toList)))])
        = aggregate_by_category
          ([("a", mkRec "2024-02-01" (PyVal.vFloat (PyFloat.finite 10))
              (some (PyVal.vStr "Meals".toList)))]
            ++ [("b", mkRec "2024-02-15" (PyVal.vFloat (PyFloat.finite 5))
              (some (PyVal.vStr "Meals".toList)))]) :=
  C6_invalid_amount_skipped
    [("a", mkRec "2024-02-01" (PyVal.vFloat (PyFloat.finite 10))
        (some (PyVal.vStr "Meals".toList)))]
    [("b", mkRec "2024-02-15" (PyVal.vFloat (PyFloat.finite 5))
        (some (PyVal.vStr "Meals".toList)))]
    "z" (mkRec "2024-02-10" PyVal.vNone none)
    (PyVal.vStr "2024-02-01".toList) (PyVal.vStr "2024-02-28".toList)
    (by decide)

/-! ### Claim C7 -/

theorem aggregate_append_single (data : Collection) (n : String) (r : Record) :
    aggregate_by_category (data ++ [(n, r)])
      = aggStep (aggregate_by_category data) (n, r) := by
  unfold aggregate_by_category
  rw [List.foldl_append]
  rfl

theorem aggStep_some {nr : String × Record} {a : PyFloat}
    (ha : asNum (pyGet nr.2.amount) = some a) (totals : List (PyVal × PyFloat)) :
    aggStep totals nr
      = alSet totals (nr.2.category.getD (PyVal.vStr "Other".toList))
          (pyAdd ((alGet totals (nr.2.category.getD (PyVal.vStr "Other".toList))).getD
            (PyFloat.finite 0)) a) := by
  unfold aggStep
  rw [ha]

/-- C7: a record whose category key is absent contributes its amount to
the `"Other"` bucket (every other bucket is untouched), and category keys
are compared without case folding: records with categories `"Meals"` and
`"meals"` accumulate into two distinct buckets. -/
theorem C7_category_default_and_case (data : Collection) (n : String) (r : Record)
    (a : PyFloat) (hc : r.category = none) (ha : asNum (pyGet r.amount) = some a) :
    alGet (aggregate_by_category (data ++ [(n, r)])) (PyVal.vStr "Other".toList)
        = some (pyAdd ((alGet (aggregate_by_category data)
            (PyVal.vStr "Other".toList)).getD (PyFloat.finite 0)) a)
      ∧ (∀ key, key ≠ PyVal.vStr "Other".toList →
          alGet (aggregate_by_category (data ++ [(n, r)])) key
            = alGet (aggregate_by_category data) key)
      ∧ aggregate_by_category mealsCasePair
          = [(PyVal.vStr "Meals".toList, PyFloat.finite 3),
             (PyVal.vStr "meals".toList, PyFloat.finite 5)] := by
  have hkey : (((n, r) : String × Record).2.category.getD (PyVal.vStr "Other".toList))
      = PyVal.vStr "Other".toList := by
    show r.category.getD (PyVal.vStr "Other".toList) = _
    rw [hc]
    rfl
  have hagg : aggregate_by_category (data ++ [(n, r)])
      = alSet (aggregate_by_category data) (PyVal.vStr "Other".toList)
          (pyAdd ((alGet (aggregate_by_category data)
            (PyVal.vStr "Other".toList)).getD (PyFloat.finite 0)) a) := by
    rw [aggregate_append_single, aggStep_some ha, hkey]
  refine ⟨?_, ?_, by with_unfolding_all decide⟩
  · rw [hagg, alGet_alSet_self]
  · intro key hk
    rw [hagg, alGet_alSet_other _ _ hk]

/-- C7 (witness): a record with no category key and amount `2.0` appended
to the example collection lands in the `"Other"` bucket and leaves the
`"Meals"` bucket unchanged. -/
theorem C7_category_default_and_case_witness :
    alGet (aggregate_by_category (exampleCollection
          ++ [("w", ⟨some (PyVal.vStr "2024-02-20".toList),
            some (PyVal.vFloat (PyFloat.finite 2)), none, none⟩)]))
        (PyVal.vStr "Other".toList)
        = some (pyAdd ((alGet (aggregate_by_category exampleCollection)
            (PyVal.vStr "Other".toList)).getD (PyFloat.finite 0)) (PyFloat.finite 2))
      ∧ (∀ key, key ≠ PyVal.vStr "Other".toList →
          alGet (aggregate_by_category (exampleCollection
              ++ [("w", ⟨some (PyVal.vStr "2024-02-20".toList),
                some (PyVal.vFloat (PyFloat.finite 2)), none, none⟩)])) key
            = alGet (aggregate_by_category exampleCollection) key)
      ∧ aggregate_by_category mealsCasePair
          = [(PyVal.vStr "Meals".toList, PyFloat.finite 3),
             (PyVal.vStr "meals".toList, PyFloat.finite 5)] :=
  C7_category_default_and_case exampleCollection "w"
    ⟨some (PyVal.vStr "2024-02-20".toList),
      some (PyVal.vFloat (PyFloat.finite 2)), none, none⟩
    (PyFloat.finite 2) rfl rfl

/-! ### Claim C10 -/

/-- C10 (edge case not stated by the spec): a record whose category key is
present with value `None` (the null the extraction service returns for
undetermined fields) accumulates under the key `None` itself, not under
`"Other"`; the `"Other"` bucket is untouched, and the resulting mapping
can contain the non-string key `None`. -/
theorem C10_category_none_key (data : Collection) (n : String) (r : Record)
    (a : PyFloat) (hc : r.category = some PyVal.vNone)
    (ha : asNum (pyGet r.amount) = some a) :
    alGet (aggregate_by_category (data ++ [(n, r)])) PyVal.vNone
        = some (pyAdd ((alGet (aggregate_by_category data) PyVal.vNone).getD
            (PyFloat.finite 0)) a)
      ∧ alGet (aggregate_by_category (data ++ [(n, r)])) (PyVal.vStr "Other".toList)
          = alGet (aggregate_by_category data) (PyVal.vStr "Other".toList)
      ∧ aggregate_by_category
          [("x", ⟨some (PyVal.vStr "2024-01-01".toList),
            some (PyVal.vFloat (PyFloat.finite 5)), none, some PyVal.vNone⟩)]
          = [(PyVal.vNone, PyFloat.finite 5)] := by
  have hkey : (((n, r) : String × Record).2.category.getD (PyVal.vStr "Other".toList))
      = PyVal.vNone := by
    show r.category.getD (PyVal.vStr "Other".toList) = _
    rw [hc]
    rfl
  have hagg : aggregate_by_category (data ++ [(n, r)])
      = alSet (aggregate_by_category data) PyVal.vNone
          (pyAdd ((alGet (aggregate_by_category data) PyVal.vNone).getD
            (PyFloat.finite 0)) a) := by
    rw [aggregate_append_single, aggStep_some ha, hkey]
  refine ⟨?_, ?_, by with_unfolding_all decide⟩
  · rw [hagg, alGet_alSet_self]
  · rw [hagg, alGet_alSet_other _ _ (by intro hh; cases hh)]

/-- C10 (witness): a category-`None` record with amount `4.0` appended to
the example collection accumulates under the key `None`. -/
theorem C10_category_none_key_witness :
    alGet (aggregate_by_category (exampleCollection
          ++ [("w", ⟨some (PyVal.vStr "2024-02-20".toList),
            some (PyVal.vFloat (PyFloat.finite 4)), none, some PyVal.vNone⟩)]))
        PyVal.vNone
        = some (pyAdd ((alGet (aggregate_by_category exampleCollection)
            PyVal.vNone).getD (PyFloat.finite 0)) (PyFloat.finite 4))
      ∧ alGet (aggregate_by_category (exampleCollection
            ++ [("w", ⟨some (PyVal.vStr "2024-02-20".toList),
              some (PyVal.vFloat (PyFloat.finite 4)), none, some PyVal.vNone⟩)]))
          (PyVal.vStr "Other".toList)
          = alGet (aggregate_by_category exampleCollection) (PyVal.vStr "Other".toList)
      ∧ aggregate_by_category
          [("x", ⟨some (PyVal.vStr "2024-01-01".toList),
            some (PyVal.vFloat (PyFloat.finite 5)), none, some PyVal.vNone⟩)]
          = [(PyVal.vNone, PyFloat.finite 5)] :=
  C10_category_none_key exampleCollection "w"
    ⟨some (PyVal.vStr "2024-02-20".toList),
      some (PyVal.vFloat (PyFloat.finite 4)), none, some PyVal.vNone⟩
    (PyFloat.finite 4) rfl rfl

/-! ### Claim C8 -/

/-- C8: normalization is idempotent on its numeric outputs: whenever
`sanitize_amount x` is a float `f`, running the Normalizer on `f` returns
`f` unchanged, and hence
`sanitize_amount (sanitize_amount x) = sanitize_amount x`. -/
theorem C8_sanitize_idempotent (x : PyVal) (f : PyFloat)
    (h : sanitize_amount x = PyVal.vFloat f) :
    sanitize_amount (PyVal.vFloat f) = PyVal.vFloat f
      ∧ sanitize_amount (sanitize_amount x) = sanitize_amount x := by
  have hp : ∃ s, pyFloatParse s = some f := by
    rcases sanitize_amount_cases x with h0 | ⟨g, hg, hgp⟩
    · rw [h0] at h
      cases h
    · rw [hg] at h
      have hgf : g = f := by injection h
      subst hgf
      exact ⟨strip (removeDollars (pyStr x)), hgp⟩
  have h1 := sanitize_vFloat_roundtrip hp
  refine ⟨h1, ?_⟩
  rw [h, h1]

/-- C8 (witness): the idempotence theorem applied to the string input
`"43.83"`, whose normalization is the float `43.83`. -/
theorem C8_sanitize_idempotent_witness :
    sanitize_amount (PyVal.vFloat (PyFloat.finite (43 + 83 / 100)))
        = PyVal.vFloat (PyFloat.finite (43 + 83 / 100))
      ∧ sanitize_amount (sanitize_amount (PyVal.vStr "43.83".toList))
          = sanitize_amount (PyVal.vStr "43.83".toList) :=
  C8_sanitize_idempotent (PyVal.vStr "43.83".toList)
    (PyFloat.finite (43 + 83 / 100)) (by with_unfolding_all decide)

/-! ### Claim C9 -/

/-- C9 (invariant not stated by the spec): `sanitize_amount` always
returns `None` or a float, so after `process_directory` every record's
amount key is present and holds `None` or a float, and the
`isinstance(amount, (int, float))` test of the aggregations (modelled by
`asNum`) succeeds exactly when normalization succeeded. -/
theorem C9_amount_none_or_float (files : List (String × String))
    (encode : String → String) (extract : String → Record)
    (p : String × Record) (hp : p ∈ process_directory files encode extract) :
    (p.2.amount = some PyVal.vNone ∧ asNum (pyGet p.2.amount) = none)
      ∨ ∃ f, p.2.amount = some (PyVal.vFloat f)
          ∧ asNum (pyGet p.2.amount) = some f := by
  unfold process_directory at hp
  obtain ⟨nf, _, hmap⟩ := List.mem_map.mp hp
  have hamount : p.2.amount
      = some (sanitize_amount (pyGet (extract (encode nf.2)).amount)) := by
    rw [← hmap]
  rcases sanitize_amount_cases (pyGet (extract (encode nf.2)).amount)
    with h | ⟨f, hf, _⟩
  · left
    rw [hamount, h]
    exact ⟨rfl, rfl⟩
  · right
    refine ⟨f, ?_, ?_⟩
    · rw [hamount, hf]
    · rw [hamount, hf]
      rfl

/-- C9 (witness): the invariant at a concrete one-file run whose
extraction returns a string amount `"$5"`. -/
theorem C9_amount_none_or_float_witness :
    ((("a", (⟨none, some (PyVal.vFloat (PyFloat.finite 5)), none, none⟩ : Record))
        : String × Record).2.amount = some PyVal.vNone
      ∧ asNum (pyGet (("a", (⟨none, some (PyVal.vFloat (PyFloat.finite 5)), none,
          none⟩ : Record)) : String × Record).2.amount) = none)
      ∨ ∃ f, (("a", (⟨none, some (PyVal.vFloat (PyFloat.finite 5)), none, none⟩
          : Record)) : String × Record).2.amount = some (PyVal.vFloat f)
        ∧ asNum (pyGet (("a", (⟨none, some (PyVal.vFloat (PyFloat.finite 5)), none,
            none⟩ : Record)) : String × Record).2.amount) = some f :=
  C9_amount_none_or_float [("a", "path")] (fun s => s)
    (fun _ => ⟨none, some (PyVal.vStr "$5".toList), none, none⟩)
    ("a", ⟨none, some (PyVal.vFloat (PyFloat.finite 5)), none, none⟩)
    (by with_unfolding_all decide)
